import Mathlib

/-!
Verification of the cfl computational-finance library (grid-based
backward-induction engine).  The C++ sources are shallowly embedded:
`double` arithmetic is modelled by exact rationals `ℚ` (or reals `ℝ`
where the code uses transcendental functions), `std::valarray` by
`List` or `Fin n → ℚ`, and the virtual strategy objects by explicit
function parameters.
-/

namespace cflInd

/-- One application of the lambda produced by `cflInd::linearInd`
(Ind.cpp): given the carried fractional indicator of the left node and
the pair of (barrier-subtracted) values `(dL, dR)`, returns the
transformed value of the left node and the updated carry. -/
def linearInd (indL dL dR : ℚ) : ℚ × ℚ :=
  if dL ≠ dR then
    let newL := |(max dL 0 - max dR 0) / (dL - dR)|
    (0.5 * (indL + newL), newL)
  else
    let newL : ℚ := if 0 ≤ dL then 1 else 0
    (0.5 * (indL + newL), newL)

/-- One application of the lambda produced by `cflInd::quadInd`
(Ind.cpp). -/
def quadInd (indL dL dR : ℚ) : ℚ × ℚ :=
  if dL < 0 ∧ 0 ≤ dR then
    (0.5 * (indL + (dR / (dR - dL)) ^ 2), 1 - (dL / (dL - dR)) ^ 2)
  else if 0 ≤ dL ∧ dR < 0 then
    (0.5 * (indL + (1 - (dR / (dR - dL)) ^ 2)), 1 - (dL / (dL - dR)) ^ 2)
  else
    let newL : ℚ := if 0 ≤ dL ∧ 0 ≤ dR then 1 else 0
    (0.5 * (indL + newL), newL)

/-- The `std::transform` sweep over adjacent pairs shared by
`cflInd::Linear::indicator` and `cflInd::Quadratic::indicator`,
followed by the "finish at right end" code: the last node is
overwritten with `0.5 * dIndL` and then `0.5` is added whenever that
(just overwritten) entry is nonnegative. -/
def sweep (f : ℚ → ℚ → ℚ → ℚ × ℚ) : ℚ → List ℚ → List ℚ
  | ind, dL :: dR :: rest =>
      let p := f ind dL dR
      p.1 :: sweep f p.2 (dR :: rest)
  | ind, [_] =>
      let z := 0.5 * ind
      [if 0 ≤ z then z + 0.5 else z]
  | _, [] => []

/-- `cflInd::Linear::indicator` (Ind.cpp): subtract the barrier, seed
the carry from the sign of the first value, sweep, finish at the right
end. -/
def linearIndicator (vals : List ℚ) (barrier : ℚ) : List ℚ :=
  let w := vals.map (fun x => x - barrier)
  sweep linearInd (if w.getD 0 0 < 0 then 0 else 1) w

/-- `cflInd::Quadratic::indicator` (Ind.cpp). -/
def quadraticIndicator (vals : List ℚ) (barrier : ℚ) : List ℚ :=
  let w := vals.map (fun x => x - barrier)
  sweep quadInd (if w.getD 0 0 < 0 then 0 else 1) w

end cflInd

/-- Claim C1: on the all-below-barrier input `[-5, -3, -1]` with
barrier `0` the linear and quadratic indicator transformations do NOT
return all zeros: every node but the last is `0`, and the last node is
`1/2`, because the code overwrites the last entry with `0.5 * dIndL`
(which is always nonnegative) before testing it against `0`, so the
extra `0.5` is added unconditionally.  The all-at-or-above-barrier half
of the claim does hold on the mirrored input `[1, 3, 5]` (all ones). -/
theorem C1_indicator_all_below_last_node_half :
    (cflInd.linearIndicator [-5, -3, -1] 0 = [0, 0, 1 / 2] ∧
      cflInd.quadraticIndicator [-5, -3, -1] 0 = [0, 0, 1 / 2]) ∧
    (cflInd.linearIndicator [1, 3, 5] 0 = [1, 1, 1] ∧
      cflInd.quadraticIndicator [1, 3, 5] 0 = [1, 1, 1]) := by
  norm_num [cflInd.linearIndicator, cflInd.quadraticIndicator, cflInd.sweep,
    cflInd.linearInd, cflInd.quadInd]

namespace cflGaussRollback

/-- The interior second difference `v[i+1] - 2*v[i] + v[i-1]` computed into
`rTemp` by `cflGaussRollback::explicitStep` (entries outside the array read
as 0; the function is only applied at indices where all three entries
exist). -/
def secondDiffAt (v : List ℚ) (i : ℕ) : ℚ :=
  v.getD (i + 1) 0 - 2 * v.getD i 0 + v.getD (i - 1) 0

/-- Entry `i` of the temporary array `rTemp` built by
`cflGaussRollback::explicitStep` before scaling by `dP`: interior entries
hold the second difference and the two boundary entries copy their
neighbors ("second derivatives at boundary points equal to neighbors"). -/
def tempAt (v : List ℚ) (i : ℕ) : ℚ :=
  if i = 0 then secondDiffAt v 1
  else if i = v.length - 1 then secondDiffAt v (v.length - 2)
  else secondDiffAt v i

/-- `cflGaussRollback::explicitStep`: `rTemp *= dP; rValues += rTemp`. -/
def explicitStep (v : List ℚ) (p : ℚ) : List ℚ :=
  (List.range v.length).map (fun i => v.getD i 0 + p * tempAt v i)

/-- The pair `(m_iSteps, m_dQ)` computed by the constructor
`cflGaussRollback::Explicit::Explicit` when `iSize >= 3`:
`m_iSteps = ceil(dVar / (2*h*h*dP))` and
`m_dQ = min(dVar / (2*h*h*m_iSteps), dP)`. -/
def explicitParams (p : ℚ) (iSize : ℕ) (h V : ℚ) : ℕ × ℚ :=
  if 3 ≤ iSize then
    let dX := 2 * h * h
    let n : ℕ := ⌈V / (dX * p)⌉₊
    (n, min (V / (dX * n)) p)
  else (0, 0)

/-- `cflGaussRollback::Explicit::rollback`: when `iSize >= 3`, apply
`explicitStep` with parameter `m_dQ` for `m_iSteps` sub-steps. -/
def explicitRollback (p : ℚ) (iSize : ℕ) (h V : ℚ) (v : List ℚ) : List ℚ :=
  if 3 ≤ iSize then
    (fun w => explicitStep w (explicitParams p iSize h V).2)^[(explicitParams p iSize h V).1] v
  else v

theorem natCeil_pos_of_pos {a : ℚ} (ha : 0 < a) : 0 < ⌈a⌉₊ :=
  Nat.ceil_pos.mpr ha

theorem getD_replicate_of_lt (m : ℕ) (c : ℚ) (i : ℕ) (hi : i < m) :
    (List.replicate m c).getD i 0 = c := by
  rw [List.getD_eq_getElem?_getD, List.getElem?_replicate, if_pos hi]
  rfl

theorem secondDiffAt_replicate (m : ℕ) (c : ℚ) (j : ℕ) (hj : j + 1 < m) :
    secondDiffAt (List.replicate m c) j = 0 := by
  have h1 : j < m := by omega
  have h2 : j - 1 < m := by omega
  rw [secondDiffAt, getD_replicate_of_lt _ _ _ hj, getD_replicate_of_lt _ _ _ h1,
    getD_replicate_of_lt _ _ _ h2]
  ring

theorem tempAt_replicate (m : ℕ) (c : ℚ) (i : ℕ) (hm : 3 ≤ m) (hi : i < m) :
    tempAt (List.replicate m c) i = 0 := by
  rw [tempAt, List.length_replicate]
  split_ifs with h0 h1
  · exact secondDiffAt_replicate _ _ _ (by omega)
  · exact secondDiffAt_replicate _ _ _ (by omega)
  · exact secondDiffAt_replicate _ _ _ (by omega)

theorem explicitStep_replicate (m : ℕ) (c p : ℚ) (hm : 3 ≤ m) :
    explicitStep (List.replicate m c) p = List.replicate m c := by
  rw [explicitStep, List.length_replicate]
  have hcong : ∀ i ∈ List.range m,
      (List.replicate m c).getD i 0 + p * tempAt (List.replicate m c) i = c := by
    intro i hi
    have hi2 : i < m := List.mem_range.mp hi
    rw [getD_replicate_of_lt _ _ _ hi2, tempAt_replicate _ _ _ hm hi2]
    ring
  calc (List.range m).map
        (fun i => (List.replicate m c).getD i 0 + p * tempAt (List.replicate m c) i)
      = (List.range m).map (fun _ => c) := List.map_congr_left hcong
    _ = List.replicate m c := by rw [List.map_const', List.length_range]

end cflGaussRollback

/-- Claim C3: for relaxation parameter `p` in `(0, 1/2]`, spacing `h > 0`,
size `N >= 3` and variance `V > 0`, the explicit scheme chooses
`n = ceil(V/(2*h^2*p))` sub-steps with per-step parameter
`q = min(V/(2*h^2*n), p)`, and these satisfy `0 < q <= p <= 1/2` and
`n*q*2*h^2 = V`. -/
theorem C3_explicit_substep_budget (p h V : ℚ) (N : ℕ)
    (hp0 : 0 < p) (hp1 : p ≤ 1 / 2) (hh : 0 < h) (hN : 3 ≤ N) (hV : 0 < V) :
    (cflGaussRollback.explicitParams p N h V).1 = ⌈V / (2 * h * h * p)⌉₊ ∧
    (cflGaussRollback.explicitParams p N h V).2
      = min (V / (2 * h * h * ((cflGaussRollback.explicitParams p N h V).1 : ℚ))) p ∧
    0 < (cflGaussRollback.explicitParams p N h V).2 ∧
    (cflGaussRollback.explicitParams p N h V).2 ≤ p ∧ p ≤ 1 / 2 ∧
    ((cflGaussRollback.explicitParams p N h V).1 : ℚ)
      * (cflGaussRollback.explicitParams p N h V).2 * (2 * h * h) = V := by
  have hP : cflGaussRollback.explicitParams p N h V
      = (⌈V / (2 * h * h * p)⌉₊,
         min (V / (2 * h * h * (⌈V / (2 * h * h * p)⌉₊ : ℚ))) p) := by
    rw [cflGaussRollback.explicitParams, if_pos hN]
  have hdX : (0 : ℚ) < 2 * h * h := by positivity
  have harg : (0 : ℚ) < V / (2 * h * h * p) := by positivity
  have hn0 : 0 < ⌈V / (2 * h * h * p)⌉₊ := cflGaussRollback.natCeil_pos_of_pos harg
  have hnQ : (0 : ℚ) < (⌈V / (2 * h * h * p)⌉₊ : ℚ) := by exact_mod_cast hn0
  have hle : V / (2 * h * h * (⌈V / (2 * h * h * p)⌉₊ : ℚ)) ≤ p := by
    rw [div_le_iff₀ (by positivity)]
    have h1 : V / (2 * h * h * p) ≤ (⌈V / (2 * h * h * p)⌉₊ : ℚ) := Nat.le_ceil _
    rw [div_le_iff₀ (by positivity)] at h1
    calc V ≤ (⌈V / (2 * h * h * p)⌉₊ : ℚ) * (2 * h * h * p) := h1
      _ = p * (2 * h * h * (⌈V / (2 * h * h * p)⌉₊ : ℚ)) := by ring
  rw [hP]
  refine ⟨rfl, rfl, ?_, ?_, hp1, ?_⟩
  · rw [min_eq_left hle]
    positivity
  · exact min_le_right _ _
  · rw [min_eq_left hle]
    field_simp
    ring

/-- Witness for C3 at `p = 1/2, h = 1, V = 1, N = 3`. -/
theorem C3_explicit_substep_budget_witness :
    (cflGaussRollback.explicitParams (1/2) 3 1 1).1 = ⌈(1 : ℚ) / (2 * 1 * 1 * (1/2))⌉₊ ∧
    (cflGaussRollback.explicitParams (1/2) 3 1 1).2
      = min ((1 : ℚ) / (2 * 1 * 1 * ((cflGaussRollback.explicitParams (1/2) 3 1 1).1 : ℚ))) (1/2) ∧
    0 < (cflGaussRollback.explicitParams (1/2) 3 1 1).2 ∧
    (cflGaussRollback.explicitParams (1/2) 3 1 1).2 ≤ 1/2 ∧ (1:ℚ)/2 ≤ 1 / 2 ∧
    ((cflGaussRollback.explicitParams (1/2) 3 1 1).1 : ℚ)
      * (cflGaussRollback.explicitParams (1/2) 3 1 1).2 * (2 * 1 * 1) = 1 :=
  C3_explicit_substep_budget (1/2) 1 1 3 (by norm_num) (by norm_num) (by norm_num)
    (by norm_num) (by norm_num)

/-- Claim C10: a single explicit finite-difference step leaves a constant
array (length at least 3) unchanged for every step parameter, and the
explicit scheme's full rollback therefore maps every constant array to
itself. -/
theorem C10_explicit_step_preserves_constants (m : ℕ) (c p : ℚ) (hm : 3 ≤ m) :
    cflGaussRollback.explicitStep (List.replicate m c) p = List.replicate m c ∧
    ∀ h V : ℚ, cflGaussRollback.explicitRollback p m h V (List.replicate m c)
      = List.replicate m c := by
  refine ⟨cflGaussRollback.explicitStep_replicate m c p hm, fun h V => ?_⟩
  rw [cflGaussRollback.explicitRollback, if_pos hm]
  exact Function.iterate_fixed (cflGaussRollback.explicitStep_replicate m c _ hm) _

/-- Witness for C10 at `m = 3, c = 7, p = 1/4`. -/
theorem C10_explicit_step_preserves_constants_witness :
    cflGaussRollback.explicitStep (List.replicate 3 7) (1/4) = List.replicate 3 7 ∧
    ∀ h V : ℚ, cflGaussRollback.explicitRollback (1/4) 3 h V (List.replicate 3 7)
      = List.replicate 3 7 :=
  C10_explicit_step_preserves_constants 3 7 (1/4) (by norm_num)

namespace cflGaussRollback

/-- The centered grid `state(iSize, dH)` of GaussRollback.cpp:
`uState[0] = -((iSize-1)*dH)/2` and each later entry adds `dH`. -/
def stateVec (n : ℕ) (dH : ℚ) : Fin n → ℚ :=
  fun i => -(((n - 1 : ℕ) : ℚ) * dH) / 2 + (i : ℚ) * dH

/-- The two-argument overload `cfl::GaussRollback::rollback(rValues,
rDelta)`: the auxiliary array `value*state` is rolled back alongside the
values and combined as in the source (`rDelta -= rValues*uState;
rDelta /= m_dVar`).  The configured scalar scheme is the abstract
transformation `R`. -/
def rollbackWithDelta {n : ℕ} (R : (Fin n → ℚ) → Fin n → ℚ) (dH dVar : ℚ)
    (v : Fin n → ℚ) : (Fin n → ℚ) × (Fin n → ℚ) :=
  let uState := stateVec n dH
  let rDelta0 := fun i => v i * uState i
  let rValues1 := R v
  let rDelta1 := R rDelta0
  let rDelta2 := fun i => rDelta1 i - rValues1 i * uState i
  (rValues1, fun i => rDelta2 i / dVar)

/-- The three-argument overload `cfl::GaussRollback::rollback(rValues,
rDelta, rGamma)`: `value*state` and `value*state^2` are rolled back
alongside the values and combined as in the source. -/
def rollbackWithDeltaGamma {n : ℕ} (R : (Fin n → ℚ) → Fin n → ℚ) (dH dVar : ℚ)
    (v : Fin n → ℚ) : (Fin n → ℚ) × (Fin n → ℚ) × (Fin n → ℚ) :=
  let uState := stateVec n dH
  let uState2 := fun i => uState i * uState i
  let rDelta0 := fun i => v i * uState i
  let rGamma0 := fun i => v i * uState2 i
  let rValues1 := R v
  let rDelta1 := R rDelta0
  let rGamma1 := R rGamma0
  let rGamma2 := fun i => rGamma1 i + (-2 * uState i * rDelta1 i + uState2 i * rValues1 i)
  let rGamma3 := fun i => rGamma2 i / dVar
  let rGamma4 := fun i => rGamma3 i - rValues1 i
  let rGamma5 := fun i => rGamma4 i / dVar
  let rDelta2 := fun i => rDelta1 i - rValues1 i * uState i
  let rDelta3 := fun i => rDelta2 i / dVar
  (rValues1, rDelta3, rGamma5)

end cflGaussRollback

/-- Claim C4: the derivative-producing rollback overloads return
`delta = (R(v*x) - R(v)*x)/V` and
`gamma = (R(v*x^2) - 2*x*R(v*x) + x^2*R(v))/V^2 - R(v)/V`, where `R` is
the configured scalar rollback applied to each auxiliary array and `x`
the centered grid vector; delta and gamma come from re-rolling `value*x`
and `value*x^2`, not from finite-differencing the rolled-back values. -/
theorem C4_delta_gamma_by_rerolling {n : ℕ} (R : (Fin n → ℚ) → Fin n → ℚ)
    (dH dVar : ℚ) (v : Fin n → ℚ) (hV : 0 < dVar) :
    (cflGaussRollback.rollbackWithDelta R dH dVar v).2
      = (fun i => (R (fun j => v j * cflGaussRollback.stateVec n dH j) i
          - R v i * cflGaussRollback.stateVec n dH i) / dVar) ∧
    (cflGaussRollback.rollbackWithDeltaGamma R dH dVar v).2.1
      = (fun i => (R (fun j => v j * cflGaussRollback.stateVec n dH j) i
          - R v i * cflGaussRollback.stateVec n dH i) / dVar) ∧
    (cflGaussRollback.rollbackWithDeltaGamma R dH dVar v).2.2
      = (fun i => (R (fun j => v j * (cflGaussRollback.stateVec n dH j) ^ 2) i
          - 2 * cflGaussRollback.stateVec n dH i
              * R (fun j => v j * cflGaussRollback.stateVec n dH j) i
          + (cflGaussRollback.stateVec n dH i) ^ 2 * R v i) / dVar ^ 2
          - R v i / dVar) := by
  have hV0 : dVar ≠ 0 := ne_of_gt hV
  refine ⟨rfl, ?_, ?_⟩
  · funext i
    simp only [cflGaussRollback.rollbackWithDeltaGamma]
  · funext i
    simp only [cflGaussRollback.rollbackWithDeltaGamma]
    have hsq : (fun j => v j * (cflGaussRollback.stateVec n dH j) ^ 2)
        = fun j => v j * (cflGaussRollback.stateVec n dH j * cflGaussRollback.stateVec n dH j) := by
      funext j
      ring
    rw [hsq]
    field_simp
    ring

/-- Witness for C4 at `n = 2`, `R` the identity, `dH = 1`, `dVar = 1`,
`v = 1`. -/
theorem C4_delta_gamma_by_rerolling_witness :
    (cflGaussRollback.rollbackWithDelta (n := 2) id 1 1 (fun _ => 1)).2
      = (fun i => ((fun j => (1:ℚ) * cflGaussRollback.stateVec 2 1 j) i
          - (1:ℚ) * cflGaussRollback.stateVec 2 1 i) / 1) ∧
    (cflGaussRollback.rollbackWithDeltaGamma (n := 2) id 1 1 (fun _ => 1)).2.1
      = (fun i => ((fun j => (1:ℚ) * cflGaussRollback.stateVec 2 1 j) i
          - (1:ℚ) * cflGaussRollback.stateVec 2 1 i) / 1) ∧
    (cflGaussRollback.rollbackWithDeltaGamma (n := 2) id 1 1 (fun _ => 1)).2.2
      = (fun i => ((fun j => (1:ℚ) * (cflGaussRollback.stateVec 2 1 j) ^ 2) i
          - 2 * cflGaussRollback.stateVec 2 1 i
              * (fun j => (1:ℚ) * cflGaussRollback.stateVec 2 1 j) i
          + (cflGaussRollback.stateVec 2 1 i) ^ 2 * (1:ℚ)) / 1 ^ 2
          - (1:ℚ) / 1) :=
  C4_delta_gamma_by_rerolling (n := 2) id 1 1 (fun _ => 1) (by norm_num)

namespace cflGaussRollback

/-- The three stages a `cflGaussRollback::Chain` can delegate to. -/
inductive StageKind
  | explStage
  | mainStage
  | implStage
deriving DecidableEq, Repr

/-- The state computed by the constructor `cflGaussRollback::Chain::Chain`:
the flag `m_bMain` and the variances assigned to the explicit, main and
implicit sub-schemes.  `dExplVar = 2*h^2*dExplP*iExpl`,
`dImplVar = 2*h^2*dImplP*iImpl`; when the remaining variance
`dV = dVar - (dExplVar + dImplVar)` is positive all three are assigned,
otherwise only the explicit scheme is assigned, with the full variance. -/
def chainAssign (iExpl iImpl : ℕ) (dExplP dImplP : ℚ) (dH dVar : ℚ) :
    Bool × ℚ × ℚ × ℚ :=
  let dExplVar := 2 * dH * dH * dExplP * (iExpl : ℚ)
  let dImplVar := 2 * dH * dH * dImplP * (iImpl : ℚ)
  let dV := dVar - (dExplVar + dImplVar)
  if 0 < dV then (true, dExplVar, dV, dImplVar)
  else (false, dVar, 0, 0)

/-- The sequence of sub-scheme invocations performed by
`cflGaussRollback::Chain::rollback`, each with the variance its scheme was
assigned: the explicit scheme runs when `m_iExpl > 0` or `!m_bMain`, and
the main and implicit schemes run when `m_bMain`. -/
def chainTrace (iExpl iImpl : ℕ) (dExplP dImplP : ℚ) (dH dVar : ℚ) :
    List (StageKind × ℚ) :=
  let a := chainAssign iExpl iImpl dExplP dImplP dH dVar
  (if 0 < iExpl ∨ a.1 = false then [(StageKind.explStage, a.2.1)] else [])
    ++ (if a.1 then [(StageKind.mainStage, a.2.2.1), (StageKind.implStage, a.2.2.2)] else [])

end cflGaussRollback

/-- Counterexample to claim C5: with `iExpl = 0`, `iImpl = 1`,
`pE = pI = 1/10`, `h = 1`, `V = 10` the remaining variance
`dV = 10 - (0 + 1/5) = 49/5` is positive, yet the chain's rollback does
NOT apply the explicit scheme (with its variance `0`) before the main
and implicit schemes: the explicit stage is skipped because
`m_iExpl = 0` and `m_bMain` holds. -/
theorem C5_chain_counterexample :
    ¬ (cflGaussRollback.chainTrace 0 1 (1/10) (1/10) 1 10
        = [(cflGaussRollback.StageKind.explStage, 0),
           (cflGaussRollback.StageKind.mainStage, 49/5),
           (cflGaussRollback.StageKind.implStage, 1/5)]) := by
  have h : cflGaussRollback.chainTrace 0 1 (1/10) (1/10) 1 10
      = [(cflGaussRollback.StageKind.mainStage, 49/5),
         (cflGaussRollback.StageKind.implStage, 1/5)] := by
    norm_num [cflGaussRollback.chainTrace, cflGaussRollback.chainAssign]
  rw [h]
  simp

/-- Claim C5 as amended: if the remaining variance
`dV = V - (2h^2*pE*iExpl + 2h^2*pI*iImpl)` is positive, the chain applies
the explicit scheme with variance `2h^2*pE*iExpl` — but only when
`iExpl > 0`; with `iExpl = 0` this (zero-variance) explicit stage is
skipped — then the main scheme with variance `dV`, then the
fully-implicit scheme with variance `2h^2*pI*iImpl`; otherwise it applies
a single pure explicit rollback with the full variance `V`. -/
theorem C5_chain_stage_split (iExpl iImpl : ℕ) (pE pI dH dVar : ℚ) :
    (0 < dVar - (2 * dH * dH * pE * (iExpl : ℚ) + 2 * dH * dH * pI * (iImpl : ℚ)) →
      cflGaussRollback.chainTrace iExpl iImpl pE pI dH dVar
        = (if 0 < iExpl
            then [(cflGaussRollback.StageKind.explStage, 2 * dH * dH * pE * (iExpl : ℚ))]
            else [])
          ++ [(cflGaussRollback.StageKind.mainStage,
                dVar - (2 * dH * dH * pE * (iExpl : ℚ) + 2 * dH * dH * pI * (iImpl : ℚ))),
              (cflGaussRollback.StageKind.implStage, 2 * dH * dH * pI * (iImpl : ℚ))]) ∧
    (dVar - (2 * dH * dH * pE * (iExpl : ℚ) + 2 * dH * dH * pI * (iImpl : ℚ)) ≤ 0 →
      cflGaussRollback.chainTrace iExpl iImpl pE pI dH dVar
        = [(cflGaussRollback.StageKind.explStage, dVar)]) := by
  constructor
  · intro hpos
    rw [cflGaussRollback.chainTrace, cflGaussRollback.chainAssign]
    simp only [if_pos hpos]
    by_cases hE : 0 < iExpl
    · simp [hE]
    · simp [hE]
  · intro hneg
    rw [cflGaussRollback.chainTrace, cflGaussRollback.chainAssign]
    simp only [if_neg (not_lt.mpr hneg)]
    simp

/-- Witness for C5's positive-remainder branch at
`iExpl = 1, iImpl = 1, pE = pI = 1/10, h = 1, V = 10`. -/
theorem C5_chain_stage_split_witness :
    cflGaussRollback.chainTrace 1 1 (1/10) (1/10) 1 10
      = (if 0 < (1:ℕ)
          then [(cflGaussRollback.StageKind.explStage, 2 * 1 * 1 * (1/10) * ((1:ℕ) : ℚ))]
          else [])
        ++ [(cflGaussRollback.StageKind.mainStage,
              10 - (2 * 1 * 1 * (1/10) * ((1:ℕ) : ℚ) + 2 * 1 * 1 * (1/10) * ((1:ℕ) : ℚ))),
            (cflGaussRollback.StageKind.implStage, 2 * 1 * 1 * (1/10) * ((1:ℕ) : ℚ))] :=
  (C5_chain_stage_split 1 1 (1/10) (1/10) 1 10).1 (by norm_num)

namespace cflBrownian

/-- A `cfl::Slice` as held by the Brownian model: the event-time index,
the dependence list and the value array. -/
structure BSlice where
  time : ℕ
  dependence : List ℕ
  values : List ℚ
deriving DecidableEq, Repr

/-- `cflBrownian::Model::numberOfNodes`: `1` for an empty dependence,
otherwise the grid size `m_uSize[iTime]`. -/
def numberOfNodes (uSize : List ℕ) (iTime : ℕ) (rDependence : List ℕ) : ℕ :=
  if rDependence.isEmpty then 1 else uSize.getD iTime 0

/-- `cflBrownian::Model::addDependence`: a dependence-free Slice asked to
carry the one state coordinate is broadcast by replicating its single
value over the grid of its event time; otherwise the Slice is
unchanged. -/
def addDependence (uSize : List ℕ) (rSlice : BSlice) (rDependence : List ℕ) : BSlice :=
  if rSlice.dependence.length = 0 ∧ rDependence.length = 1 then
    { time := rSlice.time, dependence := rDependence,
      values := List.replicate (uSize.getD rSlice.time 0) (rSlice.values.getD 0 0) }
  else rSlice

/-- `cflBrownian::Model::rollback` with the Gaussian scheme abstracted as
`R` (a function of the array size, the step, the variance and the
values): the kernel is invoked only when the Slice holds more than one
value, and the result is re-centered onto the (possibly smaller) target
grid. -/
def modelRollback (uSize : List ℕ) (uTotalVar : List ℚ) (dH : ℚ)
    (R : ℕ → ℚ → ℚ → List ℚ → List ℚ) (rSlice : BSlice) (iTime : ℕ) : BSlice :=
  let dVar := uTotalVar.getD rSlice.time 0 - uTotalVar.getD iTime 0
  let rValues :=
    if 1 < rSlice.values.length
      then R rSlice.values.length dH dVar rSlice.values
      else rSlice.values
  let iSize1 := numberOfNodes uSize iTime rSlice.dependence
  if iSize1 < rValues.length then
    { time := iTime, dependence := rSlice.dependence,
      values := (rValues.drop ((rValues.length - iSize1) / 2)).take iSize1 }
  else
    { time := iTime, dependence := rSlice.dependence, values := rValues }

end cflBrownian

/-- Claim C6: a Slice with empty dependence (single value) rolled back to
an earlier event time `iTime` is never passed through the Gaussian
kernel — the result is the same for every kernel `R`, its single value
is unchanged and only its time index becomes `iTime`. -/
theorem C6_constant_slice_rollback_frame (uSize : List ℕ) (uTotalVar : List ℚ)
    (dH : ℚ) (R : ℕ → ℚ → ℚ → List ℚ → List ℚ) (s : cflBrownian.BSlice) (iTime : ℕ)
    (hdep : s.dependence = []) (hlen : s.values.length = 1)
    (htime : iTime < s.time)
    (hvar : 1 / 10 ^ 12 < uTotalVar.getD s.time 0 - uTotalVar.getD iTime 0) :
    cflBrownian.modelRollback uSize uTotalVar dH R s iTime
      = { time := iTime, dependence := s.dependence, values := s.values } := by
  rw [cflBrownian.modelRollback]
  have h1 : ¬ (1 < s.values.length) := by omega
  have h2 : cflBrownian.numberOfNodes uSize iTime s.dependence = 1 := by
    rw [cflBrownian.numberOfNodes, hdep]
    rfl
  simp only [if_neg h1, h2]

/-- Witness for C6: a constant Slice at time 1 rolled back to time 0. -/
theorem C6_constant_slice_rollback_frame_witness :
    cflBrownian.modelRollback [4, 8] [0, 1] 1 (fun _ _ _ v => v.map (fun x => x + 100))
      { time := 1, dependence := [], values := [7] } 0
      = { time := 0, dependence := ([] : List ℕ), values := [7] } :=
  C6_constant_slice_rollback_frame [4, 8] [0, 1] 1 (fun _ _ _ v => v.map (fun x => x + 100))
    { time := 1, dependence := [], values := [7] } 0 rfl rfl (by norm_num) (by norm_num)

namespace cflSlice

/-- `std::includes` on the sorted dependence lists, as used by
`cflSlice::apply`. -/
def includesSorted : List ℕ → List ℕ → Bool
  | _, [] => true
  | [], _ :: _ => false
  | a :: l1, b :: l2 =>
      if b < a then false
      else if a < b then includesSorted l1 (b :: l2)
      else includesSorted l1 l2

/-- `cflSlice::apply` (Slice.cpp): reconcile the dependence lists of the
two operand Slices — operating directly when they are equal, and
broadcasting the smaller-dependence operand through the model's
`addDependence` otherwise — then combine the value arrays with `rF`. -/
def applySlice (uSize : List ℕ) (rS1 rS2 : cflBrownian.BSlice)
    (rF : List ℚ → List ℚ → List ℚ) : cflBrownian.BSlice :=
  if rS1.dependence = rS2.dependence then
    { rS1 with values := rF rS1.values rS2.values }
  else if rS1.dependence.length > rS2.dependence.length
      ∧ includesSorted rS1.dependence rS2.dependence then
    let uSlice := cflBrownian.addDependence uSize rS2 rS1.dependence
    { rS1 with values := rF rS1.values uSlice.values }
  else if rS2.dependence.length > rS1.dependence.length
      ∧ includesSorted rS2.dependence rS1.dependence then
    let s1b := cflBrownian.addDependence uSize rS1 rS2.dependence
    { s1b with values := rF s1b.values rS2.values }
  else
    let s1b := cflBrownian.addDependence uSize rS1 rS2.dependence
    let uSlice := cflBrownian.addDependence uSize rS2 rS1.dependence
    { s1b with values := rF s1b.values uSlice.values }

/-- The compound-assignment operators `cfl::Slice::operator+=` (and
`-=`, `*=`, `/=`) with the elementwise operation abstracted as `g`: a
right operand holding a single value takes the scalar path
(`m_uValues` combined with that value entrywise); otherwise the
dependence-reconciling `cflSlice::apply` runs with the elementwise
`valarray` operation. -/
def sliceBinOp (uSize : List ℕ) (g : ℚ → ℚ → ℚ)
    (rS1 rS2 : cflBrownian.BSlice) : cflBrownian.BSlice :=
  if rS2.values.length = 1 then
    { rS1 with values := rS1.values.map (fun x => g x (rS2.values.getD 0 0)) }
  else
    applySlice uSize rS1 rS2 (List.zipWith g)

theorem zipWith_replicate_len (g : ℚ → ℚ → ℚ) :
    ∀ (l : List ℚ) (c0 : ℚ),
      List.zipWith g l (List.replicate l.length c0) = l.map (fun x => g x c0)
  | [], _ => rfl
  | x :: xs, c0 => by
      simp only [List.length_cons, List.replicate_succ, List.zipWith_cons_cons,
        List.map_cons]
      rw [zipWith_replicate_len g xs c0]

end cflSlice

/-- Claim C8: combining a state-dependent Slice `s` (full-grid values,
dependence `[0]`) with a constant Slice `c` (single value, empty
dependence) at the same event time through any of the compound
elementwise operations gives exactly the values obtained by first
broadcasting `c` over the full grid with the model's `addDependence`
and then applying the elementwise operation. -/
theorem C8_constant_broadcast_agrees (uSize : List ℕ) (t : ℕ) (sv : List ℚ)
    (c0 : ℚ) (g : ℚ → ℚ → ℚ) (hlen : sv.length = uSize.getD t 0) :
    (cflSlice.sliceBinOp uSize g ⟨t, [0], sv⟩ ⟨t, [], [c0]⟩).values
      = List.zipWith g sv (cflBrownian.addDependence uSize ⟨t, [], [c0]⟩ [0]).values := by
  have hbc : (cflBrownian.addDependence uSize ⟨t, [], [c0]⟩ [0]).values
      = List.replicate (uSize.getD t 0) c0 := by
    rw [cflBrownian.addDependence]
    norm_num
  rw [hbc, ← hlen, cflSlice.zipWith_replicate_len g sv c0]
  rw [cflSlice.sliceBinOp]
  norm_num

/-- Witness for C8: grid of size 3 at time 0, `s = [1,2,3]`, `c = 5`,
subtraction. -/
theorem C8_constant_broadcast_agrees_witness :
    (cflSlice.sliceBinOp [3] (fun a b => a - b) ⟨0, [0], [1, 2, 3]⟩ ⟨0, [], [5]⟩).values
      = List.zipWith (fun a b => a - b) [1, 2, 3]
          (cflBrownian.addDependence [3] ⟨0, [], [5]⟩ [0]).values :=
  C8_constant_broadcast_agrees [3] 0 [1, 2, 3] 5 (fun a b => a - b) (by norm_num)

namespace cflInterp

/-- An interpolation back end as the selection logic of
`Interp_GSL::Interp_GSL` sees it: all that matters is the minimum
number of nodes (`gsl_interp_type_min_size`) the method requires. -/
structure InterpType where
  minSize : ℕ
deriving DecidableEq, Repr

/-- `gsl_interp_linear`: linear interpolation needs two nodes. -/
def linearType : InterpType := ⟨2⟩

/-- The catchable error kinds of `cfl::NError` (Error.hpp). -/
inductive CflError
  | rangeErr
  | sortErr
  | sizeErr
deriving DecidableEq, Repr

/-- The interpolation-type selection in the constructor
`Interp_GSL::Interp_GSL` (Interp.cpp): "if size is not sufficient we do
linear interpolation". -/
def chooseType (pT : InterpType) (nArgs : ℕ) : InterpType :=
  if nArgs > pT.minSize then pT else linearType

/-- The constructor `Interp_GSL::Interp_GSL` never throws: it always
produces an interpolant, falling back to the linear type when the node
count is insufficient. -/
def interpNew (pT : InterpType) (nArgs : ℕ) : Except CflError InterpType :=
  Except.ok (chooseType pT nArgs)

/-- The size check of the fitting constructor `LinFit::LinFit`
(Fit.cpp): with no more data points than basis functions it throws
`cfl::NError::size ("not enough nodes for linear fit")`. -/
def linFitNew (nBase nData : ℕ) : Except CflError Unit :=
  if nData ≤ nBase then Except.error CflError.sizeErr else Except.ok ()

end cflInterp

/-- Claim C9: with at least 2 interpolation nodes but no more than the
configured type's minimum size, the back end silently constructs a
linear interpolant (no error); the least-squares fit, by contrast,
raises a distinguishable catchable size error whenever it is given no
more data points than basis functions. -/
theorem C9_interp_fallback_and_fit_size_error (pT : cflInterp.InterpType)
    (nArgs nBase nData : ℕ) (h2 : 2 ≤ nArgs) (hmin : nArgs ≤ pT.minSize)
    (hfit : nData ≤ nBase) :
    cflInterp.interpNew pT nArgs = Except.ok cflInterp.linearType ∧
    cflInterp.linFitNew nBase nData = Except.error cflInterp.CflError.sizeErr := by
  constructor
  · rw [cflInterp.interpNew, cflInterp.chooseType, if_neg (by omega)]
  · rw [cflInterp.linFitNew, if_pos hfit]

/-- Witness for C9: a cubic-spline-like type with minimum size 3 given
3 nodes, and a fit with 2 basis functions given 2 data points. -/
theorem C9_interp_fallback_and_fit_size_error_witness :
    cflInterp.interpNew ⟨3⟩ 3 = Except.ok cflInterp.linearType ∧
    cflInterp.linFitNew 2 2 = Except.error cflInterp.CflError.sizeErr :=
  C9_interp_fallback_and_fit_size_error ⟨3⟩ 3 2 2 (by norm_num) (by norm_num) (by norm_num)

namespace cflGaussRollback

/-- Point update of an array modelled as a function: `w[j] = x`. -/
def upd (w : ℕ → ℝ) (j : ℕ) (x : ℝ) : ℕ → ℝ :=
  fun k => if k = j then x else w k

/-- The filling loop of `cflGaussRollback::weights2` (radix-2
halfcomplex packing): while `2*i < iSize` write
`rW[i] = rW[iSize-i] = exp(-(i*i*dA))`, and when the loop leaves with
`2*i == iSize` write the Nyquist entry `rW[i]`. -/
noncomputable def w2loop (iSize : ℕ) (dA : ℝ) (w : ℕ → ℝ) (i : ℕ) : ℕ → ℝ :=
  if 2 * i < iSize then
    w2loop iSize dA
      (upd (upd w i (Real.exp (-((i : ℝ) * (i : ℝ) * dA)))) (iSize - i)
        (Real.exp (-((i : ℝ) * (i : ℝ) * dA)))) (i + 1)
  else if 2 * i = iSize then upd w i (Real.exp (-((i : ℝ) * (i : ℝ) * dA)))
  else w
termination_by iSize - 2 * i

/-- `cflGaussRollback::weights2`: the radix-2 frequency multipliers with
`dA = 2*dVar*(π/(iSize*dH))^2` and `rW[0] = 1`. -/
noncomputable def weights2 (iSize : ℕ) (dH dVar : ℝ) : ℕ → ℝ :=
  w2loop iSize (2 * dVar * (Real.pi / ((iSize : ℝ) * dH)) ^ 2) (upd (fun _ => 0) 0 1) 1

/-- The filling loop of `cflGaussRollback::weights` (general-radix
halfcomplex packing): while `2*i < iSize` write
`rW[2*i-1] = rW[2*i] = exp(-(i*i*dA))`, and when the loop leaves with
`2*i == iSize` write `rW[2*i-1]`. -/
noncomputable def wloop (iSize : ℕ) (dA : ℝ) (w : ℕ → ℝ) (i : ℕ) : ℕ → ℝ :=
  if 2 * i < iSize then
    wloop iSize dA
      (upd (upd w (2 * i - 1) (Real.exp (-((i : ℝ) * (i : ℝ) * dA)))) (2 * i)
        (Real.exp (-((i : ℝ) * (i : ℝ) * dA)))) (i + 1)
  else if 2 * i = iSize then upd w (2 * i - 1) (Real.exp (-((i : ℝ) * (i : ℝ) * dA)))
  else w
termination_by iSize - 2 * i

/-- `cflGaussRollback::weights`: the general-radix frequency multipliers
with `dA = 2*dVar*(π/(iSize*dH))^2` and `rW[0] = 1`. -/
noncomputable def weights (iSize : ℕ) (dH dVar : ℝ) : ℕ → ℝ :=
  wloop iSize (2 * dVar * (Real.pi / ((iSize : ℝ) * dH)) ^ 2) (upd (fun _ => 0) 0 1) 1

/-- `cflGaussRollback::FFT2::rollback` / `FFT::rollback` with the GSL
transform pair abstracted: forward real FFT, pointwise multiplication by
the weight array (`rValues *= m_uW`), inverse transform. -/
def fftRollback (fwd inv : (ℕ → ℝ) → ℕ → ℝ) (w v : ℕ → ℝ) : ℕ → ℝ :=
  inv (fun k => fwd v k * w k)

theorem w2loop_untouched (iSize : ℕ) (dA : ℝ) :
    ∀ (fuel : ℕ) (w : ℕ → ℝ) (i k : ℕ), iSize - 2 * i ≤ fuel → k < i → 2 * k ≤ iSize →
      w2loop iSize dA w i k = w k := by
  intro fuel
  induction fuel with
  | zero =>
    intro w i k hf hk hk2
    rw [w2loop, if_neg (by omega)]
    by_cases h2 : 2 * i = iSize
    · rw [if_pos h2, upd]
      rw [if_neg (by omega)]
    · rw [if_neg h2]
  | succ n ih =>
    intro w i k hf hk hk2
    rw [w2loop]
    by_cases hcond : 2 * i < iSize
    · rw [if_pos hcond, ih _ (i + 1) k (by omega) (by omega) hk2]
      rw [upd, if_neg (by omega), upd, if_neg (by omega)]
    · rw [if_neg hcond]
      by_cases h2 : 2 * i = iSize
      · rw [if_pos h2, upd, if_neg (by omega)]
      · rw [if_neg h2]

theorem w2loop_writes (iSize : ℕ) (dA : ℝ) :
    ∀ (fuel : ℕ) (w : ℕ → ℝ) (i k : ℕ), iSize - 2 * i ≤ fuel → 1 ≤ i → i ≤ k →
      2 * k ≤ iSize → w2loop iSize dA w i k = Real.exp (-((k : ℝ) * (k : ℝ) * dA)) := by
  intro fuel
  induction fuel with
  | zero =>
    intro w i k hf h1 hik hk
    have hik2 : i = k := by omega
    subst hik2
    rw [w2loop, if_neg (by omega), if_pos (by omega), upd, if_pos rfl]
  | succ n ih =>
    intro w i k hf h1 hik hk
    rw [w2loop]
    by_cases hcond : 2 * i < iSize
    · rw [if_pos hcond]
      by_cases hik2 : i = k
      · subst hik2
        rw [w2loop_untouched iSize dA iSize _ (i + 1) i (by omega) (by omega) hk]
        rw [upd, if_neg (by omega), upd, if_pos rfl]
      · rw [ih _ (i + 1) k (by omega) (by omega) (by omega) hk]
    · rw [if_neg hcond]
      have hik2 : i = k := by omega
      subst hik2
      rw [if_pos (by omega), upd, if_pos rfl]

theorem wloop_untouched (iSize : ℕ) (dA : ℝ) :
    ∀ (fuel : ℕ) (w : ℕ → ℝ) (i k : ℕ), iSize - 2 * i ≤ fuel → 1 ≤ i → k < 2 * i - 1 →
      wloop iSize dA w i k = w k := by
  intro fuel
  induction fuel with
  | zero =>
    intro w i k hf h1 hk
    rw [wloop, if_neg (by omega)]
    by_cases h2 : 2 * i = iSize
    · rw [if_pos h2, upd, if_neg (by omega)]
    · rw [if_neg h2]
  | succ n ih =>
    intro w i k hf h1 hk
    rw [wloop]
    by_cases hcond : 2 * i < iSize
    · rw [if_pos hcond, ih _ (i + 1) k (by omega) (by omega) (by omega)]
      rw [upd, if_neg (by omega), upd, if_neg (by omega)]
    · rw [if_neg hcond]
      by_cases h2 : 2 * i = iSize
      · rw [if_pos h2, upd, if_neg (by omega)]
      · rw [if_neg h2]

theorem wloop_writes_odd (iSize : ℕ) (dA : ℝ) :
    ∀ (fuel : ℕ) (w : ℕ → ℝ) (i k : ℕ), iSize - 2 * i ≤ fuel → 1 ≤ i → i ≤ k →
      2 * k ≤ iSize →
      wloop iSize dA w i (2 * k - 1) = Real.exp (-((k : ℝ) * (k : ℝ) * dA)) := by
  intro fuel
  induction fuel with
  | zero =>
    intro w i k hf h1 hik hk
    have hik2 : i = k := by omega
    subst hik2
    rw [wloop, if_neg (by omega), if_pos (by omega), upd, if_pos rfl]
  | succ n ih =>
    intro w i k hf h1 hik hk
    rw [wloop]
    by_cases hcond : 2 * i < iSize
    · rw [if_pos hcond]
      by_cases hik2 : i = k
      · subst hik2
        rw [wloop_untouched iSize dA iSize _ (i + 1) (2 * i - 1) (by omega) (by omega)
          (by omega)]
        rw [upd, if_neg (by omega), upd, if_pos rfl]
      · rw [ih _ (i + 1) k (by omega) (by omega) (by omega) hk]
    · rw [if_neg hcond]
      have hik2 : i = k := by omega
      subst hik2
      rw [if_pos (by omega), upd, if_pos rfl]

theorem wloop_writes_even (iSize : ℕ) (dA : ℝ) :
    ∀ (fuel : ℕ) (w : ℕ → ℝ) (i k : ℕ), iSize - 2 * i ≤ fuel → 1 ≤ i → i ≤ k →
      2 * k < iSize →
      wloop iSize dA w i (2 * k) = Real.exp (-((k : ℝ) * (k : ℝ) * dA)) := by
  intro fuel
  induction fuel with
  | zero =>
    intro w i k hf h1 hik hk
    omega
  | succ n ih =>
    intro w i k hf h1 hik hk
    rw [wloop]
    by_cases hcond : 2 * i < iSize
    · rw [if_pos hcond]
      by_cases hik2 : i = k
      · subst hik2
        rw [wloop_untouched iSize dA iSize _ (i + 1) (2 * i) (by omega) (by omega)
          (by omega)]
        rw [upd, if_pos rfl]
      · rw [ih _ (i + 1) k (by omega) (by omega) (by omega) hk]
    · omega

theorem weights2_val (iSize : ℕ) (dH dVar : ℝ) (k : ℕ) (h1 : 1 ≤ k)
    (hk : 2 * k ≤ iSize) :
    weights2 iSize dH dVar k
      = Real.exp (-((k : ℝ) * (k : ℝ) * (2 * dVar * (Real.pi / ((iSize : ℝ) * dH)) ^ 2))) := by
  rw [weights2]
  exact w2loop_writes iSize _ iSize _ 1 k (by omega) le_rfl h1 hk

theorem weights_val_odd (iSize : ℕ) (dH dVar : ℝ) (k : ℕ) (h1 : 1 ≤ k)
    (hk : 2 * k ≤ iSize) :
    weights iSize dH dVar (2 * k - 1)
      = Real.exp (-((k : ℝ) * (k : ℝ) * (2 * dVar * (Real.pi / ((iSize : ℝ) * dH)) ^ 2))) := by
  rw [weights]
  exact wloop_writes_odd iSize _ iSize _ 1 k (by omega) le_rfl h1 hk

theorem weights_val_even (iSize : ℕ) (dH dVar : ℝ) (k : ℕ) (h1 : 1 ≤ k)
    (hk : 2 * k < iSize) :
    weights iSize dH dVar (2 * k)
      = Real.exp (-((k : ℝ) * (k : ℝ) * (2 * dVar * (Real.pi / ((iSize : ℝ) * dH)) ^ 2))) := by
  rw [weights]
  exact wloop_writes_even iSize _ iSize _ 1 k (by omega) le_rfl h1 hk

end cflGaussRollback

/-- Counterexample to claim C2: for the radix-2 scheme with
`N = 4, h = 1, V = 1` the multiplier stored for frequency `k = 1` is
`exp(-2*V*k^2*(π/(N*h))^2)`, not the claimed `exp(-V*k^2*(π/(N*h))^2)` —
the code's `dA = 2*dVar*pow(M_PI/(iSize*dH), 2)` carries a factor 2 the
claim omits. -/
theorem C2_fft_weight_counterexample :
    ¬ (cflGaussRollback.weights2 4 1 1 1
        = Real.exp (-(1 * (1 : ℝ) ^ 2 * (Real.pi / (((4 : ℕ) : ℝ) * 1)) ^ 2))) := by
  rw [cflGaussRollback.weights2_val 4 1 1 1 (by norm_num) (by norm_num)]
  intro hcontra
  rw [Real.exp_eq_exp] at hcontra
  have hpi : (0 : ℝ) < (Real.pi / (((4 : ℕ) : ℝ) * 1)) ^ 2 := by positivity
  nlinarith [hcontra, hpi]

/-- Claim C2 as amended: the FFT-based rollback schemes multiply the
`k`-th frequency component by `exp(-2*V*k^2*(π/(N*h))^2)` (the claim's
formula with the code's factor 2): in the radix-2 halfcomplex packing
that multiplier sits at index `k` (and, by symmetry, `N-k`), in the
general-radix packing at indices `2k-1` and `2k`; the rollback applies
the forward real transform, the pointwise multiplication and the
inverse transform. -/
theorem C2_fft_weights_amended (iSize : ℕ) (dH dVar : ℝ) (k : ℕ)
    (hH : 0 < dH) (hV : 0 < dVar) (h1 : 1 ≤ k) (hk : 2 * k ≤ iSize) :
    cflGaussRollback.weights2 iSize dH dVar k
      = Real.exp (-(2 * dVar * (k : ℝ) ^ 2 * (Real.pi / ((iSize : ℝ) * dH)) ^ 2)) ∧
    cflGaussRollback.weights iSize dH dVar (2 * k - 1)
      = Real.exp (-(2 * dVar * (k : ℝ) ^ 2 * (Real.pi / ((iSize : ℝ) * dH)) ^ 2)) ∧
    (2 * k < iSize →
      cflGaussRollback.weights iSize dH dVar (2 * k)
        = Real.exp (-(2 * dVar * (k : ℝ) ^ 2 * (Real.pi / ((iSize : ℝ) * dH)) ^ 2))) ∧
    (∀ (fwd inv : (ℕ → ℝ) → ℕ → ℝ) (v : ℕ → ℝ),
      cflGaussRollback.fftRollback fwd inv (cflGaussRollback.weights2 iSize dH dVar) v
        = inv (fun j => fwd v j * cflGaussRollback.weights2 iSize dH dVar j)) := by
  have harg : ∀ k : ℕ, -((k : ℝ) * (k : ℝ) * (2 * dVar * (Real.pi / ((iSize : ℝ) * dH)) ^ 2))
      = -(2 * dVar * (k : ℝ) ^ 2 * (Real.pi / ((iSize : ℝ) * dH)) ^ 2) := by
    intro j
    ring
  refine ⟨?_, ?_, fun h2 => ?_, fun fwd inv v => rfl⟩
  · rw [cflGaussRollback.weights2_val iSize dH dVar k h1 hk, harg]
  · rw [cflGaussRollback.weights_val_odd iSize dH dVar k h1 hk, harg]
  · rw [cflGaussRollback.weights_val_even iSize dH dVar k h1 h2, harg]

/-- Witness for the amended C2 at `N = 4, h = 1, V = 1, k = 1`. -/
theorem C2_fft_weights_amended_witness :
    cflGaussRollback.weights2 4 1 1 1
      = Real.exp (-(2 * 1 * ((1 : ℕ) : ℝ) ^ 2 * (Real.pi / (((4 : ℕ) : ℝ) * 1)) ^ 2)) ∧
    cflGaussRollback.weights 4 1 1 (2 * 1 - 1)
      = Real.exp (-(2 * 1 * ((1 : ℕ) : ℝ) ^ 2 * (Real.pi / (((4 : ℕ) : ℝ) * 1)) ^ 2)) ∧
    (2 * 1 < 4 →
      cflGaussRollback.weights 4 1 1 (2 * 1)
        = Real.exp (-(2 * 1 * ((1 : ℕ) : ℝ) ^ 2 * (Real.pi / (((4 : ℕ) : ℝ) * 1)) ^ 2))) ∧
    (∀ (fwd inv : (ℕ → ℝ) → ℕ → ℝ) (v : ℕ → ℝ),
      cflGaussRollback.fftRollback fwd inv (cflGaussRollback.weights2 4 1 1) v
        = inv (fun j => fwd v j * cflGaussRollback.weights2 4 1 1 j)) :=
  C2_fft_weights_amended 4 1 1 1 (by norm_num) (by norm_num) (by norm_num) (by norm_num)

namespace cflGrid

/-- `cfl::Grid::widthGauss` (Slice.cpp source block): the grid width as a
function of the total variance,
`2*(v + sqrt(v*(v + 4*log Q))) + EPS` with `EPS = 1e-10`. -/
noncomputable def widthGauss (dWidthQuality dVar : ℝ) : ℝ :=
  2 * (dVar + Real.sqrt (dVar * (dVar + 4 * Real.log dWidthQuality))) + 1 / 10 ^ 10

/-- `cfl::Grid::step`: `min(1/stepQuality, sqrt(1.5*variance/uniformSteps))`. -/
noncomputable def stepGrid (dStepQuality : ℝ) (iUniformSteps : ℕ) (dVar : ℝ) : ℝ :=
  min (1 / dStepQuality) (Real.sqrt (1.5 * dVar / (iUniformSteps : ℝ)))

/-- `cfl::Grid::size`: round the approximate size up to an integer. -/
noncomputable def sizeCeil (dSize : ℝ) : ℕ := ⌈dSize⌉₊

/-- `cfl::Grid::size2`: round the approximate size up to a power of two. -/
noncomputable def size2 (dSize : ℝ) : ℕ := 2 ^ ⌈Real.logb 2 dSize⌉₊

theorem widthGauss_mono (Q : ℝ) (hQ : 1 ≤ Q) {v1 v2 : ℝ} (h0 : 0 ≤ v1)
    (h12 : v1 ≤ v2) : widthGauss Q v1 ≤ widthGauss Q v2 := by
  have hlog : 0 ≤ Real.log Q := Real.log_nonneg hQ
  have hsq : Real.sqrt (v1 * (v1 + 4 * Real.log Q))
      ≤ Real.sqrt (v2 * (v2 + 4 * Real.log Q)) := by
    apply Real.sqrt_le_sqrt
    nlinarith
  rw [widthGauss, widthGauss]
  linarith

theorem sizeCeil_mono {x y : ℝ} (hxy : x ≤ y) : sizeCeil x ≤ sizeCeil y :=
  Nat.ceil_le_ceil hxy

theorem size2_mono {x y : ℝ} (hx : 1 ≤ x) (hxy : x ≤ y) : size2 x ≤ size2 y := by
  apply Nat.pow_le_pow_right (by norm_num)
  apply Nat.ceil_le_ceil
  exact Real.logb_le_logb_of_le (by norm_num) (by linarith) hxy

end cflGrid

namespace cflBrownian

/-- The cumulative-variance vector `m_uTotalVar` of the constructor
`cflBrownian::Model::Model`: `rVar[i] * (rEventTimes[i] - dToday)` with
`dToday` the first event time. -/
def totalVarList (uVar uEventTimes : List ℝ) : List ℝ :=
  List.zipWith (fun dVar dTime => dVar * (dTime - uEventTimes.getD 0 0)) uVar uEventTimes

/-- `minVar` (Brownian.cpp): the least increment between consecutive
total variances, folded through `min` from `OMEGA = 1e20`. -/
def minVarList (uTotalVar : List ℝ) : ℝ :=
  (List.zipWith (fun x y => x - y) uTotalVar.tail uTotalVar).foldl min (10 ^ 20)

/-- The per-event-time grid point counts `m_uSize` computed by the
constructor `cflBrownian::Model::Model`: the step comes from the minimal
variance increment, and each total variance maps to
`rSize(max((dInterval + width)/h, 2) + EPS)`. -/
noncomputable def gridSizes (rH rWidth : ℝ → ℝ) (rSize : ℝ → ℕ)
    (uVar uEventTimes : List ℝ) (dInterval : ℝ) : List ℕ :=
  let uTotalVar := totalVarList uVar uEventTimes
  let dH := rH (minVarList uTotalVar)
  uTotalVar.map (fun dVar => rSize (max ((dInterval + rWidth dVar) / dH) 2 + 1 / 10 ^ 10))

theorem foldl_min_pos : ∀ (l : List ℝ) (init : ℝ), 0 < init → (∀ x ∈ l, 0 < x) →
    0 < l.foldl min init
  | [], _, h, _ => h
  | a :: l, init, h, hall =>
      foldl_min_pos l (min init a) (lt_min h (hall a (List.mem_cons_self a l)))
        (fun x hx => hall x (List.mem_cons_of_mem a hx))

theorem adjacent_diffs_pos : ∀ (l : List ℝ), l.Chain' (· < ·) →
    ∀ d ∈ List.zipWith (fun x y => x - y) l.tail l, 0 < d := by
  intro l
  induction l with
  | nil =>
    intro _ d hd
    simp at hd
  | cons a l ih =>
    cases l with
    | nil =>
      intro _ d hd
      simp at hd
    | cons b m =>
      intro hch d hd
      rw [List.chain'_cons] at hch
      rw [List.tail_cons, List.zipWith_cons_cons] at hd
      rcases List.mem_cons.mp hd with h | h
      · rw [h]
        linarith [hch.1]
      · exact ih hch.2 d h

/-- The `ASSERT (dMinVar > cfl::EPS)` fact of `minVar`: strictly
increasing total variances give a positive minimal increment. -/
theorem minVarList_pos (l : List ℝ) (hchain : l.Chain' (· < ·)) :
    0 < minVarList l := by
  rw [minVarList]
  exact foldl_min_pos _ _ (by norm_num) (adjacent_diffs_pos l hchain)

/-- The first total variance is `0` by construction, so a strictly
increasing total-variance vector is nonnegative throughout. -/
theorem totalVarList_nonneg (uVar uT : List ℝ)
    (hchain : (totalVarList uVar uT).Chain' (· < ·)) :
    ∀ x ∈ totalVarList uVar uT, 0 ≤ x := by
  cases uVar with
  | nil =>
    intro x hx
    simp [totalVarList] at hx
  | cons v0 vs =>
    cases uT with
    | nil =>
      intro x hx
      simp [totalVarList] at hx
    | cons t0 ts =>
      have hhead : totalVarList (v0 :: vs) (t0 :: ts)
          = 0 :: List.zipWith (fun dVar dTime => dVar * (dTime - t0)) vs ts := by
        rw [totalVarList]
        simp
      rw [hhead] at hchain ⊢
      have hpw := List.chain'_iff_pairwise.mp hchain
      intro x hx
      rcases List.mem_cons.mp hx with h | h
      · rw [h]
      · have hxpos := (List.pairwise_cons.mp hpw).1 x h
        linarith

end cflBrownian

/-- Claim C7: with the default step, widthGauss and size policies, a
Brownian model built over strictly increasing positive cumulative
variances has non-decreasing per-event-time grid point counts — both
with the power-of-two rounding `Grid::size2` (the default) and with the
plain ceiling `Grid::size`. -/
theorem C7_grid_sizes_monotone (sq Q dInterval : ℝ) (n : ℕ) (uVar uT : List ℝ)
    (hQ : 1 ≤ Q) (hsq : 0 < sq) (hn : 0 < n)
    (hchain : (cflBrownian.totalVarList uVar uT).Chain' (· < ·)) :
    (cflBrownian.gridSizes (cflGrid.stepGrid sq n) (cflGrid.widthGauss Q)
        cflGrid.size2 uVar uT dInterval).Chain' (· ≤ ·) ∧
    (cflBrownian.gridSizes (cflGrid.stepGrid sq n) (cflGrid.widthGauss Q)
        cflGrid.sizeCeil uVar uT dInterval).Chain' (· ≤ ·) := by
  have hnonneg := cflBrownian.totalVarList_nonneg uVar uT hchain
  have hmin := cflBrownian.minVarList_pos _ hchain
  set tv := cflBrownian.totalVarList uVar uT with htv
  set dH := cflGrid.stepGrid sq n (cflBrownian.minVarList tv) with hdH
  have hH : 0 < dH := by
    rw [hdH, cflGrid.stepGrid]
    apply lt_min
    · positivity
    · apply Real.sqrt_pos.mpr
      have hnR : (0 : ℝ) < (n : ℝ) := by exact_mod_cast hn
      positivity
  have hinner : ∀ a b : ℝ, 0 ≤ a → a ≤ b →
      max ((dInterval + cflGrid.widthGauss Q a) / dH) 2 + 1 / 10 ^ 10
        ≤ max ((dInterval + cflGrid.widthGauss Q b) / dH) 2 + 1 / 10 ^ 10 := by
    intro a b ha hab
    have hw := cflGrid.widthGauss_mono Q hQ ha hab
    have hdiv : (dInterval + cflGrid.widthGauss Q a) / dH
        ≤ (dInterval + cflGrid.widthGauss Q b) / dH := by
      apply div_le_div_of_nonneg_right ?_ hH.le
      linarith
    have hmax := max_le_max hdiv (le_refl (2 : ℝ))
    linarith
  have hlow : ∀ a : ℝ,
      (1 : ℝ) ≤ max ((dInterval + cflGrid.widthGauss Q a) / dH) 2 + 1 / 10 ^ 10 := by
    intro a
    have h2 : (2 : ℝ) ≤ max ((dInterval + cflGrid.widthGauss Q a) / dH) 2 :=
      le_max_right _ _
    norm_num
    linarith
  have hpair : ∀ (rS : ℝ → ℕ),
      (∀ x y : ℝ, 1 ≤ x → x ≤ y → rS x ≤ rS y) →
      (cflBrownian.gridSizes (cflGrid.stepGrid sq n) (cflGrid.widthGauss Q)
        rS uVar uT dInterval).Chain' (· ≤ ·) := by
    intro rS hrS
    rw [cflBrownian.gridSizes]
    simp only [← htv, ← hdH]
    rw [List.chain'_map]
    rw [List.chain'_iff_get] at hchain ⊢
    intro i hi
    have hmem1 : tv.get ⟨i, by omega⟩ ∈ tv := tv.get_mem _ _
    have hlt := hchain i hi
    exact hrS _ _ (hlow _) (hinner _ _ (hnonneg _ hmem1) (le_of_lt hlt))
  constructor
  · exact hpair cflGrid.size2 (fun x y hx hxy => cflGrid.size2_mono hx hxy)
  · exact hpair cflGrid.sizeCeil (fun x y hx hxy => cflGrid.sizeCeil_mono hxy)

/-- Witness for C7: two event times `[0, 1]` with variances `[1, 2]`
(total variances `[0, 2]`), `stepQuality = 1`, `widthQuality = 1`,
`3` uniform steps, interval `0`. -/
theorem C7_grid_sizes_monotone_witness :
    (cflBrownian.gridSizes (cflGrid.stepGrid 1 3) (cflGrid.widthGauss 1)
        cflGrid.size2 [1, 2] [0, 1] 0).Chain' (· ≤ ·) ∧
    (cflBrownian.gridSizes (cflGrid.stepGrid 1 3) (cflGrid.widthGauss 1)
        cflGrid.sizeCeil [1, 2] [0, 1] 0).Chain' (· ≤ ·) := by
  have htv : cflBrownian.totalVarList [1, 2] [0, 1] = [0, 2] := by
    norm_num [cflBrownian.totalVarList]
  refine C7_grid_sizes_monotone 1 1 0 3 [1, 2] [0, 1] le_rfl one_pos (by norm_num) ?_
  rw [htv]
  norm_num [List.chain'_cons]
